import Mathlib

/-!
Verification development for the sbpf-dbg debugger.

Shallow embedding of:
  * the parameter serializer (`crates/debugger-input/src/lib.rs`):
    `serialize_parameters`, `Serializer::write_account_data`, `generate`;
  * the DWARF line mapper (`crates/debugger/src/parser.rs`): `LineMap`;
  * the stepping controller (`src/debugger.rs`): `Debugger::run`,
    breakpoint bookkeeping and compute-unit accounting;
  * the CLI `--input` parsing (`src/main.rs`).

Bytes are modelled as `Nat` values below 256, u64 values as `Nat` taken
mod 2^64 where it matters; a `Pubkey` is its 32-byte list.
-/

namespace SbpfDbg

/-- A public key is its byte sequence (32 bytes in well-formed inputs). -/
abbrev Pubkey := List Nat

namespace Input

/-- Little-endian byte dump of a u64 value, as done by
`Serializer::write::<u64>` on a `to_le` value. -/

def u64le (x : Nat) : List Nat :=
  [x % 256, x / 2 ^ 8 % 256, x / 2 ^ 16 % 256, x / 2 ^ 24 % 256,
   x / 2 ^ 32 % 256, x / 2 ^ 40 % 256, x / 2 ^ 48 % 256, x / 2 ^ 56 % 256]

/-- Rust `Account` from `crates/debugger-input/src/lib.rs`. -/

structure Account where
  key : Pubkey
  owner : Pubkey
  lamports : Nat
  data : List Nat
  is_signer : Bool
  is_writable : Bool
  executable : Bool
  rent_epoch : Nat
deriving DecidableEq

/-- Rust `SerializeAccount`: full account with its original index, or a
back-reference to the first index holding the same key. -/

inductive SerializeAccount where
  | Account (idx : Nat) (a : Account)
  | Duplicate (pos : Nat)
deriving DecidableEq

/-- A Rust `bool` dumped as one byte. -/

def boolByte (b : Bool) : Nat := if b then 1 else 0

/-- Rust `BPF_ALIGN_OF_U128` padding: zero bytes rounding `n` up to 16. -/

def pad16 (n : Nat) : Nat := (16 - n % 16) % 16

/-- Rust `Serializer::write_account_data`: the data bytes, the 10240-byte
realloc headroom, then zero padding that rounds the whole running
buffer up to a 16-byte boundary. -/

def writeAccountData (buf : List Nat) (data : List Nat) : List Nat :=
  let b := buf ++ data ++ List.replicate 10240 0
  b ++ List.replicate (pad16 b.length) 0

/-- One iteration of the account loop of `serialize_parameters`,
appending one serialized entry to the running buffer. -/

def serAccount (buf : List Nat) : SerializeAccount → List Nat
  | .Account _ a =>
      writeAccountData
        (buf ++ [255, boolByte a.is_signer, boolByte a.is_writable, boolByte a.executable]
             ++ [0, 0, 0, 0] ++ a.key ++ a.owner ++ u64le a.lamports ++ u64le a.data.length)
        a.data
      ++ u64le a.rent_epoch
  | .Duplicate p => buf ++ [p] ++ [0, 0, 0, 0, 0, 0, 0]

/-- Rust `serialize_parameters`: account count, serialized accounts,
instruction-data length, instruction data, program id. -/

def serialize_parameters (accounts : List SerializeAccount)
    (instruction_data : List Nat) (program_id : Pubkey) : List Nat :=
  (accounts.foldl serAccount (u64le accounts.length))
    ++ u64le instruction_data.length ++ instruction_data ++ program_id

/-- Size contributed by one serialized entry when the running buffer
already holds `runningLen` bytes: 8 for a duplicate, and
`8 + 32 + 32 + 8 + 8 + |data| + 10240 + pad_to_16 + 8` for a full
account, the padding rounding the whole running buffer after the
realloc headroom and before `rent_epoch`. -/

def accountSize (runningLen : Nat) : SerializeAccount → Nat
  | .Account _ a =>
      8 + 32 + 32 + 8 + 8 + a.data.length + 10240
        + pad16 (runningLen + (8 + 32 + 32 + 8 + 8 + a.data.length + 10240)) + 8
  | .Duplicate _ => 8

/-- Total size of the serialized account entries starting at running
buffer length `runningLen`. -/

def sumSizes (runningLen : Nat) : List SerializeAccount → Nat
  | [] => 0
  | sa :: rest =>
      accountSize runningLen sa + sumSizes (runningLen + accountSize runningLen sa) rest

/-- Well-formedness: keys and owners are 32-byte sequences, as the Rust
`Pubkey` type guarantees. -/

def wfSerAccount : SerializeAccount → Prop
  | .Account _ a => a.key.length = 32 ∧ a.owner.length = 32
  | .Duplicate _ => True

instance (sa : SerializeAccount) : Decidable (wfSerAccount sa) := by
  cases sa <;> simp [wfSerAccount] <;> infer_instance

/-- Rust `AccountMeta` of the instruction (`solana_sdk::instruction`). -/

structure AccountMeta where
  pubkey : Pubkey
  is_signer : Bool
  is_writable : Bool
deriving DecidableEq

/-- The provided account record (`solana_sdk::account::Account`). -/

structure SolAccount where
  lamports : Nat
  data : List Nat
  owner : Pubkey
  executable : Bool
  rent_epoch : Nat
deriving DecidableEq

/-- Rust `Instruction`: program id, account-meta list, instruction data. -/

structure Instruction where
  program_id : Pubkey
  accounts : List AccountMeta
  data : List Nat
deriving DecidableEq

/-- Rust `DebuggerInputError` (the I/O variant is not reachable in the pure
model: file writing happens only after a successful serialization). -/

inductive DebuggerInputError where
  | MissingAccount (key : Pubkey)
deriving DecidableEq

/-- Lookup in the `(key, account)` list with the semantics of the
`HashMap` that `generate` collects from it: the last entry wins. -/

def lookupLast (l : List (Pubkey × SolAccount)) (k : Pubkey) : Option SolAccount :=
  match l with
  | [] => none
  | p :: rest =>
      match lookupLast rest k with
      | some v => some v
      | none => if p.1 = k then some p.2 else none

/-- Recording a key in the `seen_pubkeys` map. -/

def seenInsert (seen : Pubkey → Option Nat) (k : Pubkey) (i : Nat) :
    Pubkey → Option Nat :=
  fun q => if q = k then some i else seen q

/-- The full `Account` built by `generate` from a meta entry and the
provided account: flags from the meta, fields from the account. -/

def accountFromParts (m : AccountMeta) (provided : SolAccount) : Account :=
  ⟨m.pubkey, provided.owner, provided.lamports, provided.data,
   m.is_signer, m.is_writable, provided.executable, provided.rent_epoch⟩

/-- The account-meta loop of `generate`: `i` is the running meta index
and `seen` the `seen_pubkeys` map; the `% 256` is the `as u8` cast on
the recorded first index. -/

def genAccountsGo (accounts : List (Pubkey × SolAccount)) :
    List AccountMeta → Nat → (Pubkey → Option Nat) →
    Except DebuggerInputError (List SerializeAccount)
  | [], _, _ => .ok []
  | m :: rest, i, seen =>
      match seen m.pubkey with
      | some first_index =>
          (genAccountsGo accounts rest (i + 1) seen).map
            (fun out => .Duplicate (first_index % 256) :: out)
      | none =>
          match lookupLast accounts m.pubkey with
          | none => .error (.MissingAccount m.pubkey)
          | some provided =>
              (genAccountsGo accounts rest (i + 1) (seenInsert seen m.pubkey i)).map
                (fun out => .Account i (accountFromParts m provided) :: out)

/-- The duplicate-detection pass of `generate` over the whole meta list. -/

def genAccounts (metas : List AccountMeta) (accounts : List (Pubkey × SolAccount)) :
    Except DebuggerInputError (List SerializeAccount) :=
  genAccountsGo accounts metas 0 (fun _ => none)

/-- One lowercase hexadecimal digit. -/

def hexDigit (n : Nat) : Char :=
  if n < 10 then Char.ofNat (48 + n) else Char.ofNat (87 + n)

/-- The hex encoding written by `generate`: two lowercase digits per
byte with the 02x format, in order, no separators. -/

def hexEncode (bytes : List Nat) : List Char :=
  bytes.flatMap (fun b => [hexDigit (b / 16), hexDigit (b % 16)])

/-- Value of one hex digit character. -/

def hexVal (c : Char) : Option Nat :=
  if 48 ≤ c.toNat ∧ c.toNat ≤ 57 then some (c.toNat - 48)
  else if 97 ≤ c.toNat ∧ c.toNat ≤ 102 then some (c.toNat - 87)
  else none

/-- Decoding a hex string two digits at a time. -/

def hexDecode : List Char → Option (List Nat)
  | [] => some []
  | c1 :: c2 :: rest =>
      match hexVal c1, hexVal c2, hexDecode rest with
      | some h, some l, some bs => some ((h * 16 + l) :: bs)
      | _, _, _ => none
  | [_] => none

/-- The file-name component of a path: what follows the last slash
(`Path::file_name` for the plain relative names `generate` receives). -/

def fileNameOf (name : List Char) : List Char :=
  name.foldl (fun acc c => if c = '/' then [] else acc ++ [c]) []

/-- Rust `Path::extension().is_none()` test used by `generate`: the file
name has an extension iff a dot occurs after its first character. -/

def hasExtension (name : List Char) : Bool :=
  ((fileNameOf name).drop 1).contains '.'

/-- The one file-system effect of a successful `generate`: directory,
file name inside it, and the text written. -/

structure FileOutput where
  dir : List Char
  name : List Char
  content : List Char
deriving DecidableEq

/-- Rust `generate`: duplicate detection, serialization, then the hex file
under `.dbg/` (name given `.hex` when it has no extension, content the
hex encoding followed by one newline). The Rust file-system calls
happen only after serialization succeeds, so the error case carries no
file output. -/

def generate (instruction : Instruction) (accounts : List (Pubkey × SolAccount))
    (output_name : List Char) : Except DebuggerInputError FileOutput :=
  match genAccounts instruction.accounts accounts with
  | .error e => .error e
  | .ok serialized_accounts =>
      let serialized_data :=
        serialize_parameters serialized_accounts instruction.data instruction.program_id
      let final_name :=
        if hasExtension output_name then output_name
        else output_name ++ String.toList ".hex"
      .ok ⟨String.toList ".dbg", final_name, hexEncode serialized_data ++ [Char.ofNat 10]⟩

/-- All entries of the list are byte values. -/

def isByteList (l : List Nat) : Prop := ∀ b ∈ l, b < 256

instance (l : List Nat) : Decidable (isByteList l) :=
  List.decidableBAll _ l

/-- Byte well-formedness of a serialized entry's numeric payloads. -/

def byteSerAccount : SerializeAccount → Prop
  | .Account _ a => isByteList a.key ∧ isByteList a.owner ∧ isByteList a.data
  | .Duplicate p => p < 256

end Input

namespace Parser

/-- One non-end-sequence row of a DWARF line program, after the file
path has been resolved against `comp_dir` (the resolution itself is a
library call outside the mapper): address, line, column, file. -/

structure Row where
  address : Nat
  line : Nat
  column : Nat
  file : String
deriving DecidableEq

/-- Rust `SourceLocation` from `parser.rs`. -/

structure SourceLocation where
  file : String
  line : Nat
  column : Nat
  address : Nat
deriving DecidableEq

/-- The `LineMap` maps, each `HashMap` modelled as its lookup
function. -/

structure LineMap where
  address_to_line : Nat → Option Nat
  line_to_addresses : Nat → List Nat
  dwarf_to_pc : Nat → Option Nat
  pc_to_dwarf : Nat → Option Nat
  source_locations : Nat → Option SourceLocation
  line_to_address : String × Nat → Option Nat
  files : List String

/-- Rust `LineMap::new`. -/

def emptyLineMap : LineMap :=
  ⟨fun _ => none, fun _ => [], fun _ => none, fun _ => none, fun _ => none,
   fun _ => none, []⟩

/-- The inserts performed for one row by
`parse_debug_info_from_object`: overwrite `address_to_line`,
`source_locations` and `line_to_address`, push onto
`line_to_addresses`, dedupe the file list. -/

def insertRow (m : LineMap) (r : Row) : LineMap where
  address_to_line :=
    fun a => if a = r.address then some r.line else m.address_to_line a
  line_to_addresses :=
    fun l => if l = r.line then m.line_to_addresses l ++ [r.address]
             else m.line_to_addresses l
  dwarf_to_pc := m.dwarf_to_pc
  pc_to_dwarf := m.pc_to_dwarf
  source_locations :=
    fun a => if a = r.address then some ⟨r.file, r.line, r.column, r.address⟩
             else m.source_locations a
  line_to_address :=
    fun k => if k = (r.file, r.line) then some r.address else m.line_to_address k
  files := if r.file ≠ "" ∧ r.file ∉ m.files then m.files ++ [r.file] else m.files

/-- Rust `build_pc_mapping`: the identity on every key of
`address_to_line`. -/

def build_pc_mapping (m : LineMap) : LineMap :=
  { m with
    dwarf_to_pc := fun a => if (m.address_to_line a).isSome then some a else none
    pc_to_dwarf := fun a => if (m.address_to_line a).isSome then some a else none }

/-- Rust `from_elf_data` once DWARF parsing has produced the row list:
insert every row, then build the PC mapping. -/

def fromRows (rows : List Row) : LineMap :=
  build_pc_mapping (rows.foldl insertRow emptyLineMap)

/-- Rust `LineMap::get_line_for_address`. -/

def get_line_for_address (m : LineMap) (address : Nat) : Option Nat :=
  m.address_to_line address

/-- Rust `LineMap::get_addresses_for_line` (absent line: empty). -/

def get_addresses_for_line (m : LineMap) (line : Nat) : List Nat :=
  m.line_to_addresses line

/-- Rust `LineMap::get_line_for_pc`. -/

def get_line_for_pc (m : LineMap) (pc : Nat) : Option Nat :=
  match m.pc_to_dwarf pc with
  | some dwarf_addr => get_line_for_address m dwarf_addr
  | none => get_line_for_address m pc

/-- Rust `LineMap::get_pcs_for_line`. -/

def get_pcs_for_line (m : LineMap) (line : Nat) : List Nat :=
  (get_addresses_for_line m line).filterMap (fun a => m.dwarf_to_pc a)

/-- Rust `LineMap::get_source_location`. -/

def get_source_location (m : LineMap) (address : Nat) : Option SourceLocation :=
  m.source_locations address

/-- Rows feeding the C6 counterexample: one address recorded on two
different lines, as two DWARF rows at the same address produce. -/

def c6Rows : List Row := [⟨0, 5, 1, "f"⟩, ⟨0, 7, 1, "f"⟩]

end Parser

namespace Dbg

/-- Rust `ProgramResult` of the sBPF VM: `Ok(code)` or `Err(error)`. -/

inductive ProgResult where
  | ok (code : Nat)
  | err (msg : String)
deriving DecidableEq

/-- The interpreter state the controller observes: `reg[11]` (the PC
in instruction units), the accumulated `due_insn_count`, the compute
meter of the context object (`get_remaining`), and
`vm.program_result`. -/

structure InterpState where
  reg11 : Nat
  dueInsnCount : Nat
  meter : Nat
  programResult : ProgResult
deriving DecidableEq

/-- One `interpreter.step()` call: the Bool is the Rust return value
(`true` iff an instruction was executed), the new state carries every
mutation the step performed. -/

abbrev StepFn := InterpState → Bool × InterpState

/-- Rust `DebugMode`. -/

inductive DebugMode where
  | Step
  | Continue
deriving DecidableEq

/-- Rust `DebugEvent`; the `Error` payload keeps the PC and interpreter
error that the Rust code formats into its message string. -/

inductive DebugEvent where
  | Breakpoint (pc : Nat) (line : Option Nat)
  | Step (pc : Nat) (line : Option Nat)
  | Exit (code : Nat)
  | Error (pc : Nat) (msg : String)
deriving DecidableEq

/-- The `Debugger` fields read and written by `run` and the
breakpoint operations; sets are lists without duplicates. -/

structure DState where
  interp : InterpState
  breakpoints : List Nat
  line_breakpoints : List Nat
  dwarf_line_map : Option Parser.LineMap
  debug_mode : DebugMode
  at_breakpoint : Bool
  last_breakpoint_pc : Option Nat
  initial_compute_budget : Nat

/-- Rust `ebpf::INSN_SIZE`. -/

def INSN_SIZE : Nat := 8

/-- Rust `Debugger::get_pc`: `reg[11] * INSN_SIZE`. -/

def get_pc (d : DState) : Nat := d.interp.reg11 * INSN_SIZE

/-- Rust `Debugger::get_line_for_pc`: through the optional DWARF map. -/

def get_line_for_pc (d : DState) (pc : Nat) : Option Nat :=
  match d.dwarf_line_map with
  | some m => Parser.get_line_for_pc m pc
  | none => none

/-- Rust `Debugger::consume_instruction_cost`: when `due_insn_count` is
positive, deduct it from the compute meter (`consume` is a saturating
subtraction) and reset it to zero. -/

def consume_instruction_cost (i : InterpState) : InterpState :=
  if i.dueInsnCount > 0 then
    { i with meter := i.meter - i.dueInsnCount, dueInsnCount := 0 }
  else i

/-- Result of one `run` call: the event, the final debugger state, and
how many instructions the interpreter executed during the call. -/

structure RunOut where
  event : DebugEvent
  state : DState
  executed : Nat

/-- The Step-mode block after executing the pending instruction at a
breakpoint (flags already cleared in `d1`): re-check the new PC and
either enter the break state again or report the step. -/

def stepAfterBreak (d1 : DState) : RunOut :=
  if d1.breakpoints.contains (get_pc d1) = true then
    ⟨.Breakpoint (get_pc d1) (get_line_for_pc d1 (get_pc d1)),
     { d1 with at_breakpoint := true, last_breakpoint_pc := some (get_pc d1) }, 1⟩
  else
    ⟨.Step (get_pc d1) (get_line_for_pc d1 (get_pc d1)), d1, 1⟩

/-- Rust `Debugger::run` in `DebugMode::Step` (`debugger.rs` lines
185-248). -/

def runStep (f : StepFn) (d : DState) : RunOut :=
  if d.at_breakpoint = true then
    if (f d.interp).1 = true then
      stepAfterBreak
        { d with interp := consume_instruction_cost (f d.interp).2,
                 at_breakpoint := false, last_breakpoint_pc := none }
    else
      match ((f d.interp).2).programResult with
      | .ok result =>
          ⟨.Exit result, { d with interp := consume_instruction_cost (f d.interp).2 }, 0⟩
      | .err e => ⟨.Error (get_pc d) e, { d with interp := (f d.interp).2 }, 0⟩
  else if (d.breakpoints.contains (get_pc d)
      && !(d.last_breakpoint_pc == some (get_pc d))) = true then
    ⟨.Breakpoint (get_pc d) (get_line_for_pc d (get_pc d)),
     { d with at_breakpoint := true, last_breakpoint_pc := some (get_pc d) }, 0⟩
  else
    if (f d.interp).1 = true then
      ⟨.Step (get_pc d) (get_line_for_pc d (get_pc d)),
       { d with interp := consume_instruction_cost (f d.interp).2 }, 1⟩
    else
      match ((f d.interp).2).programResult with
      | .ok result =>
          ⟨.Exit result, { d with interp := consume_instruction_cost (f d.interp).2 }, 0⟩
      | .err e => ⟨.Error (get_pc d) e, { d with interp := (f d.interp).2 }, 0⟩

/-- Rust `Debugger::run` in `DebugMode::Continue` (`debugger.rs` lines
250-301): the loop with explicit fuel; `n` counts the instructions
executed so far in this call; `none` means the fuel ran out before
the loop returned. -/

def runContinueAux (f : StepFn) : Nat → DState → Nat → Option RunOut
  | 0, _, _ => none
  | fuel + 1, d, n =>
    if d.at_breakpoint = true then
      if (f d.interp).1 = true then
        runContinueAux f fuel
          { d with interp := consume_instruction_cost (f d.interp).2,
                   at_breakpoint := false, last_breakpoint_pc := none } (n + 1)
      else
        match ((f d.interp).2).programResult with
        | .ok result =>
            some ⟨.Exit result,
              { d with interp := consume_instruction_cost (f d.interp).2 }, n⟩
        | .err e => some ⟨.Error (get_pc d) e, { d with interp := (f d.interp).2 }, n⟩
    else if (d.breakpoints.contains (get_pc d)
        && !(d.last_breakpoint_pc == some (get_pc d))) = true then
      some ⟨.Breakpoint (get_pc d) (get_line_for_pc d (get_pc d)),
        { d with at_breakpoint := true, last_breakpoint_pc := some (get_pc d) }, n⟩
    else
      if (f d.interp).1 = true then
        runContinueAux f fuel { d with interp := consume_instruction_cost (f d.interp).2 }
          (n + 1)
      else
        match ((f d.interp).2).programResult with
        | .ok result =>
            some ⟨.Exit result,
              { d with interp := consume_instruction_cost (f d.interp).2 }, n⟩
        | .err e => some ⟨.Error (get_pc d) e, { d with interp := (f d.interp).2 }, n⟩

/-- Rust `Debugger::run`, dispatching on the mode. -/

def run (f : StepFn) (fuel : Nat) (d : DState) : Option RunOut :=
  match d.debug_mode with
  | .Step => some (runStep f d)
  | .Continue => runContinueAux f fuel d 0

/-- Identity interpreter step used by controller witnesses: reports
success and leaves the state unchanged. -/

def idStep : StepFn := fun i => (true, i)

/-- A concrete Ready debugger state with breakpoints at PCs 0 and 8. -/

def readyState : DState :=
  ⟨⟨0, 0, 100, .ok 0⟩, [0, 8], [], none, .Step, false, none, 100⟩

/-- A state that has just reported a breakpoint at PC 0. -/

def atBreakState : DState :=
  ⟨⟨0, 0, 100, .ok 0⟩, [0, 8], [], none, .Continue, true, some 0, 100⟩

/-- Rust `get_compute_units`: the remaining compute units. -/

def remaining (d : DState) : Nat := d.interp.meter

/-- Rust `get_compute_units`: `used = total.saturating_sub(remaining)`. -/

def used (d : DState) : Nat := d.initial_compute_budget - d.interp.meter

/-- Rust `HashSet::insert` on the list model. -/

def setInsert (l : List Nat) (x : Nat) : List Nat :=
  if l.contains x then l else l ++ [x]

/-- Rust `HashSet::remove` on the list model. -/

def setRemove (l : List Nat) (x : Nat) : List Nat :=
  l.filter (fun y => !(y == x))

/-- Rust `Debugger::set_breakpoint_at_line` (`debugger.rs` lines 79-90):
with a DWARF map and a non-empty PC list for the line, install the
line and its PCs; in every case return `Ok(())`. -/

def set_breakpoint_at_line (d : DState) (line : Nat) :
    Except String Unit × DState :=
  match d.dwarf_line_map with
  | some m =>
      if Parser.get_pcs_for_line m line ≠ [] then
        (.ok (),
         { d with line_breakpoints := setInsert d.line_breakpoints line,
                  breakpoints :=
                    (Parser.get_pcs_for_line m line).foldl setInsert d.breakpoints })
      else (.ok (), d)
  | none => (.ok (), d)

/-- Rust `Debugger::remove_breakpoint_at_line` (`debugger.rs` lines
92-103). -/

def remove_breakpoint_at_line (d : DState) (line : Nat) :
    Except String Unit × DState :=
  match d.dwarf_line_map with
  | some m =>
      if Parser.get_pcs_for_line m line ≠ [] then
        (.ok (),
         { d with line_breakpoints := setRemove d.line_breakpoints line,
                  breakpoints :=
                    (Parser.get_pcs_for_line m line).foldl setRemove d.breakpoints })
      else (.ok (), d)
  | none => (.ok (), d)

/-- The `setBreakpoint` JSON payload of `DebuggerInterface`,
abstracted to the fields the adapter loop inspects: the `type`
string, the `verified` flag, and the optional `error` key. -/

structure SetBpPayload where
  rtype : String
  verified : Bool
  errorField : Option String
deriving DecidableEq

/-- Rust `DebuggerInterface::set_breakpoint` (`debugger.rs` lines
410-426): `verified: true` without an `error` key on `Ok`, and
`verified: false` with one on `Err`. -/

def set_breakpoint_response (d : DState) (line : Nat) : SetBpPayload × DState :=
  match set_breakpoint_at_line d line with
  | (.ok _, d') => (⟨"setBreakpoint", true, none⟩, d')
  | (.error e, d') => (⟨"setBreakpoint", false, some e⟩, d')

/-- The adapter envelope's `success` flag (`adapter.rs`): false iff
the payload object has an `error` key or its `type` is `"error"`. -/

def envelope_success (p : SetBpPayload) : Bool :=
  !p.errorField.isSome && !(p.rtype == "error")

end Dbg

namespace Cli

/-- ASCII whitespace as relevant to the trims here. -/

def isWs (c : Char) : Bool := c == ' ' || c == '\t' || c == '\n' || c == '\r'

/-- Rust `str::trim` on a character list. -/

def trimChars (s : List Char) : List Char :=
  ((s.dropWhile isWs).reverse.dropWhile isWs).reverse

/-- Rust `str::split(',')`: split at every comma, keeping empty parts. -/

def splitOnComma : List Char → List (List Char)
  | [] => [[]]
  | c :: rest =>
      if c == ',' then [] :: splitOnComma rest
      else
        match splitOnComma rest with
        | [] => [[c]]
        | p :: ps => (c :: p) :: ps

/-- Rust `u8::from_str`: an optional leading `+` followed by decimal
digits whose value fits in a byte. -/

def parseU8 (s : List Char) : Option Nat :=
  let digits := if s.head? = some '+' then s.drop 1 else s
  if digits = [] then none
  else if digits.all (fun c => c.isDigit) then
    let v := digits.foldl (fun acc c => acc * 10 + (c.toNat - 48)) 0
    if v ≤ 255 then some v else none
  else none

/-- The per-part loop of the `--input` processing (`main.rs` lines
207-222): trim each comma-separated part, skip empty parts, abort on
a part that fails to parse (modelled as `none`). -/

def parseInputParts : List (List Char) → Option (List Nat)
  | [] => some []
  | p :: ps =>
      if trimChars p = [] then parseInputParts ps
      else
        match parseU8 (trimChars p) with
        | some b => (parseInputParts ps).map (fun bs => b :: bs)
        | none => none

/-- The `--input` processing of `main` (`main.rs` lines 206-225): an
input with empty trim yields the empty buffer passed to the VM input
region; any other input is split on commas and parsed. -/

def parseInput (input : List Char) : Option (List Nat) :=
  if trimChars input ≠ [] then parseInputParts (splitOnComma input)
  else some []

end Cli

namespace Input

theorem u64le_length (x : Nat) : (u64le x).length = 8 := rfl

theorem writeAccountData_length (buf data : List Nat) :
    (writeAccountData buf data).length =
      buf.length + data.length + 10240
        + pad16 (buf.length + data.length + 10240) := by
  simp only [writeAccountData, List.length_append, List.length_replicate, pad16]

theorem serAccount_length (buf : List Nat) (sa : SerializeAccount)
    (h : wfSerAccount sa) :
    (serAccount buf sa).length = buf.length + accountSize buf.length sa := by
  cases sa with
  | Account i a =>
      obtain ⟨hk, ho⟩ := h
      simp [serAccount, accountSize, writeAccountData_length, u64le_length,
        List.length_append, hk, ho, pad16]
      omega
  | Duplicate p => simp [serAccount, accountSize]

theorem foldl_serAccount_length (accs : List SerializeAccount) :
    ∀ buf : List Nat, (∀ sa ∈ accs, wfSerAccount sa) →
      (accs.foldl serAccount buf).length = buf.length + sumSizes buf.length accs := by
  induction accs with
  | nil => intro buf _; simp [sumSizes]
  | cons sa rest ih =>
      intro buf hwf
      have hsa := hwf sa (List.mem_cons_self sa rest)
      have hrest : ∀ x ∈ rest, wfSerAccount x :=
        fun x hx => hwf x (List.mem_cons_of_mem sa hx)
      simp only [List.foldl_cons, sumSizes]
      rw [ih (serAccount buf sa) hrest, serAccount_length buf sa hsa]
      omega

/-- C4: for every account list, instruction data and program id (keys
being 32-byte values), the serialized buffer has length
`8 + Σ size(account_i) + 8 + |instruction_data| + 32`, a duplicate
contributing 8 bytes and a full account
`8 + 32 + 32 + 8 + 8 + |data| + 10240 + pad_to_16 + 8` bytes, the
padding rounding the whole running buffer to a 16-byte boundary after
the 10240-byte realloc pad and before `rent_epoch`. -/
theorem serialize_parameters_length (accounts : List SerializeAccount)
    (instruction_data : List Nat) (program_id : Pubkey)
    (hwf : ∀ sa ∈ accounts, wfSerAccount sa) (hpid : program_id.length = 32) :
    (serialize_parameters accounts instruction_data program_id).length =
      8 + sumSizes 8 accounts + 8 + instruction_data.length + 32 := by
  simp [serialize_parameters, List.length_append, u64le_length, hpid,
    foldl_serAccount_length accounts (u64le accounts.length) hwf]
  omega

/-- Witness for C4 at a concrete input: one full account with 3 data
bytes after one duplicate entry, 2 bytes of instruction data. -/
theorem serialize_parameters_length_witness :
    (serialize_parameters
        [SerializeAccount.Duplicate 0,
         SerializeAccount.Account 1
           ⟨List.replicate 32 7, List.replicate 32 9, 5, [1, 2, 3],
            true, false, false, 0⟩]
        [4, 5] (List.replicate 32 1)).length =
      8 + sumSizes 8
        [SerializeAccount.Duplicate 0,
         SerializeAccount.Account 1
           ⟨List.replicate 32 7, List.replicate 32 9, 5, [1, 2, 3],
            true, false, false, 0⟩]
        + 8 + 2 + 32 :=
  serialize_parameters_length _ _ _ (by decide) (by simp)

theorem serAccount_dup (buf : List Nat) (p : Nat) :
    serAccount buf (.Duplicate p) = buf ++ p :: List.replicate 7 0 := by
  simp [serAccount, List.append_assoc]

/-- Invariant of the `generate` account loop: `rest` is the tail of the
meta list starting at global index `i`, and `seen` records the first
global index of every key met before; the entry produced for the
`t`-th remaining meta is a duplicate back-reference to the first index
of its key when one exists and a full account otherwise. -/
theorem genAccountsGo_spec (accounts : List (Pubkey × SolAccount)) :
    ∀ (rest : List AccountMeta) (i : Nat) (seen : Pubkey → Option Nat)
      (out : List SerializeAccount),
      genAccountsGo accounts rest i seen = .ok out →
      ∀ t (ht : t < rest.length),
        (∀ j, seen rest[t].pubkey = some j →
          out[t]? = some (.Duplicate (j % 256))) ∧
        (seen rest[t].pubkey = none →
          ∀ j, (rest.take t).findIdx? (fun m => m.pubkey == rest[t].pubkey) = some j →
            out[t]? = some (.Duplicate ((i + j) % 256))) ∧
        (seen rest[t].pubkey = none →
          (rest.take t).findIdx? (fun m => m.pubkey == rest[t].pubkey) = none →
          ∃ provided, lookupLast accounts rest[t].pubkey = some provided ∧
            out[t]? = some (.Account (i + t) (accountFromParts rest[t] provided))) := by
  intro rest
  induction rest with
  | nil => intro i seen out h t ht; exact absurd ht (Nat.not_lt_zero t)
  | cons m rest ih =>
      intro i seen out h t ht
      simp only [genAccountsGo] at h
      cases hseen : seen m.pubkey with
      | some j0 =>
          rw [hseen] at h
          cases hgo : genAccountsGo accounts rest (i + 1) seen with
          | error e => rw [hgo] at h; simp [Except.map] at h
          | ok out' =>
              rw [hgo] at h
              simp only [Except.map, Except.ok.injEq] at h
              subst h
              match t with
              | 0 =>
                  refine ⟨fun j hj => ?_, fun hnone => ?_, fun hnone => ?_⟩
                  · simp only [List.getElem_cons_zero, hseen, Option.some.injEq] at hj
                    subst hj
                    simp
                  · simp [hseen] at hnone
                  · simp [hseen] at hnone
              | t' + 1 =>
                  have ht' : t' < rest.length := Nat.lt_of_succ_lt_succ ht
                  have IH := ih (i + 1) seen out' hgo t' ht'
                  simp only [List.getElem_cons_succ, List.getElem?_cons_succ]
                  refine ⟨IH.1, fun hnone j hj => ?_, fun hnone hj => ?_⟩
                  · have hne : (m.pubkey == rest[t'].pubkey) = false := by
                      simp only [beq_eq_false_iff_ne, ne_eq]
                      intro he
                      rw [he, hnone] at hseen; cases hseen
                    simp only [List.take_succ_cons, List.findIdx?_cons, hne,
                      Bool.false_eq_true, if_false, List.findIdx?_succ] at hj
                    rcases Option.map_eq_some'.mp hj with ⟨j', hj', rfl⟩
                    rw [IH.2.1 hnone j' hj']
                    have harith : i + 1 + j' = i + (j' + 1) := by omega
                    rw [harith]
                  · have hne : (m.pubkey == rest[t'].pubkey) = false := by
                      simp only [beq_eq_false_iff_ne, ne_eq]
                      intro he
                      rw [he, hnone] at hseen; cases hseen
                    simp only [List.take_succ_cons, List.findIdx?_cons, hne,
                      Bool.false_eq_true, if_false, List.findIdx?_succ,
                      Option.map_eq_none'] at hj
                    rcases IH.2.2 hnone hj with ⟨provided, hp, hout⟩
                    refine ⟨provided, hp, ?_⟩
                    rw [hout]
                    have harith : i + 1 + t' = i + (t' + 1) := by omega
                    rw [harith]
      | none =>
          rw [hseen] at h
          cases hlk : lookupLast accounts m.pubkey with
          | none => rw [hlk] at h; cases h
          | some provided =>
              rw [hlk] at h
              cases hgo : genAccountsGo accounts rest (i + 1) (seenInsert seen m.pubkey i) with
              | error e => rw [hgo] at h; simp [Except.map] at h
              | ok out' =>
                  rw [hgo] at h
                  simp only [Except.map, Except.ok.injEq] at h
                  subst h
                  match t with
                  | 0 =>
                      refine ⟨fun j hj => ?_, fun hnone j hj => ?_, fun hnone hfind => ?_⟩
                      · simp [hseen] at hj
                      · rw [List.take_zero, List.findIdx?_nil] at hj; cases hj
                      · refine ⟨provided, ?_, ?_⟩
                        · rw [List.getElem_cons_zero]; exact hlk
                        · simp
                  | t' + 1 =>
                      have ht' : t' < rest.length := Nat.lt_of_succ_lt_succ ht
                      have IH := ih (i + 1) (seenInsert seen m.pubkey i) out' hgo t' ht'
                      simp only [List.getElem_cons_succ, List.getElem?_cons_succ]
                      by_cases hk : rest[t'].pubkey = m.pubkey
                      · have hseen' : seenInsert seen m.pubkey i rest[t'].pubkey = some i := by
                          simp [seenInsert, hk]
                        refine ⟨fun j hj => ?_, fun hnone j hj => ?_, fun hnone hfind => ?_⟩
                        · rw [hk, hseen] at hj; cases hj
                        · have heq : (m.pubkey == rest[t'].pubkey) = true := by
                            simp [hk]
                          simp only [List.take_succ_cons, List.findIdx?_cons, heq,
                            if_true, Option.some.injEq] at hj
                          subst hj
                          rw [IH.1 i hseen']
                          simp
                        · have heq : (m.pubkey == rest[t'].pubkey) = true := by
                            simp [hk]
                          simp [List.take_succ_cons, List.findIdx?_cons, heq] at hfind
                      · have hseen' : seenInsert seen m.pubkey i rest[t'].pubkey =
                            seen rest[t'].pubkey := by
                          simp [seenInsert, hk]
                        have hne : (m.pubkey == rest[t'].pubkey) = false := by
                          simp only [beq_eq_false_iff_ne, ne_eq]
                          exact fun he => hk he.symm
                        refine ⟨fun j hj => ?_, fun hnone j hj => ?_, fun hnone hfind => ?_⟩
                        · exact IH.1 j (hseen'.trans hj)
                        · simp only [List.take_succ_cons, List.findIdx?_cons, hne,
                            Bool.false_eq_true, if_false, List.findIdx?_succ] at hj
                          rcases Option.map_eq_some'.mp hj with ⟨j', hj', rfl⟩
                          rw [IH.2.1 (hseen'.trans hnone) j' hj']
                          have harith : i + 1 + j' = i + (j' + 1) := by omega
                          rw [harith]
                        · simp only [List.take_succ_cons, List.findIdx?_cons, hne,
                            Bool.false_eq_true, if_false, List.findIdx?_succ,
                            Option.map_eq_none'] at hfind
                          rcases IH.2.2 (hseen'.trans hnone) hfind with ⟨p', hp', hout⟩
                          refine ⟨p', hp', ?_⟩
                          rw [hout]
                          have harith : i + 1 + t' = i + (t' + 1) := by omega
                          rw [harith]

/-- C5: when the `i`-th account-meta key equals the `j`-th key for the
smallest such `j < i` (the `findIdx?` over the length-`i` prefix),
`generate` emits at position `i` a duplicate entry holding the byte
`j mod 256` (the `as u8` cast) whose serialized form is that byte
followed by exactly 7 zero bytes, with no copy of the account fields;
a first occurrence is serialized as a full account built from the
meta's flags and the provided account's fields. -/
theorem generate_duplicate_aliasing (metas : List AccountMeta)
    (accounts : List (Pubkey × SolAccount)) (out : List SerializeAccount)
    (h : genAccounts metas accounts = .ok out) (i : Nat) (hi : i < metas.length) :
    (∀ j, (metas.take i).findIdx? (fun m => m.pubkey == metas[i].pubkey) = some j →
        out[i]? = some (.Duplicate (j % 256)) ∧
        ∀ buf, serAccount buf (.Duplicate (j % 256)) =
          buf ++ (j % 256) :: List.replicate 7 0) ∧
    ((metas.take i).findIdx? (fun m => m.pubkey == metas[i].pubkey) = none →
        ∃ provided, lookupLast accounts metas[i].pubkey = some provided ∧
          out[i]? = some (.Account i (accountFromParts metas[i] provided))) := by
  have spec := genAccountsGo_spec accounts metas 0 (fun _ => none) out h i hi
  refine ⟨fun j hj => ⟨?_, fun buf => serAccount_dup buf (j % 256)⟩, fun hnone => ?_⟩
  · have := spec.2.1 rfl j hj
    simpa using this
  · have := spec.2.2 rfl hnone
    simpa using this

/-- Witness for C5: metas `[A, B, A]` with both keys provided; the
third entry is a back-reference to index 0. -/
theorem generate_duplicate_aliasing_witness :
    (genAccounts
        [⟨[1], true, true⟩, ⟨[2], false, true⟩, ⟨[1], false, false⟩]
        [([1], ⟨5, [9], [3], false, 0⟩), ([2], ⟨6, [], [4], false, 1⟩)] =
      Except.ok
        [SerializeAccount.Account 0 ⟨[1], [3], 5, [9], true, true, false, 0⟩,
         SerializeAccount.Account 1 ⟨[2], [4], 6, [], false, true, false, 1⟩,
         SerializeAccount.Duplicate 0]) ∧
      ([SerializeAccount.Account 0 ⟨[1], [3], 5, [9], true, true, false, 0⟩,
        SerializeAccount.Account 1 ⟨[2], [4], 6, [], false, true, false, 1⟩,
        SerializeAccount.Duplicate 0][2]? =
          some (SerializeAccount.Duplicate (0 % 256)) ∧
        ∀ buf, serAccount buf (SerializeAccount.Duplicate (0 % 256)) =
          buf ++ (0 % 256) :: List.replicate 7 0) :=
  ⟨rfl,
   (generate_duplicate_aliasing
      [⟨[1], true, true⟩, ⟨[2], false, true⟩, ⟨[1], false, false⟩]
      [([1], ⟨5, [9], [3], false, 0⟩), ([2], ⟨6, [], [4], false, 1⟩)]
      _ rfl 2 (by decide)).1 0 (by decide)⟩

/-- If the `t`-th remaining meta references a key with no provided
account and not recorded in `seen`, while every earlier remaining meta
references a provided key, the loop stops with `MissingAccount` for
exactly that key. -/
theorem genAccountsGo_missing (accounts : List (Pubkey × SolAccount)) :
    ∀ (rest : List AccountMeta) (t : Nat) (ht : t < rest.length) (i : Nat)
      (seen : Pubkey → Option Nat),
      seen rest[t].pubkey = none →
      lookupLast accounts rest[t].pubkey = none →
      (∀ j (hj : j < t),
        lookupLast accounts (rest.get ⟨j, Nat.lt_trans hj ht⟩).pubkey ≠ none) →
      genAccountsGo accounts rest i seen = .error (.MissingAccount rest[t].pubkey) := by
  intro rest
  induction rest with
  | nil => intro t ht; exact absurd ht (Nat.not_lt_zero t)
  | cons m rest ih =>
      intro t ht i seen hseen hmiss hearlier
      match t with
      | 0 =>
          simp only [List.getElem_cons_zero] at hseen hmiss ⊢
          simp only [genAccountsGo, hseen, hmiss]
      | t' + 1 =>
          have ht' : t' < rest.length := Nat.lt_of_succ_lt_succ ht
          simp only [List.getElem_cons_succ] at hseen hmiss ⊢
          simp only [genAccountsGo]
          cases hsm : seen m.pubkey with
          | some j0 =>
              have hrec := ih t' ht' (i + 1) seen hseen hmiss
                (fun j hj => hearlier (j + 1) (Nat.succ_lt_succ hj))
              rw [hrec]
              rfl
          | none =>
              cases hlm : lookupLast accounts m.pubkey with
              | none =>
                  exact absurd hlm (by
                    have := hearlier 0 (Nat.succ_pos t')
                    simpa using this)
              | some p =>
                  have hseen' : seenInsert seen m.pubkey i rest[t'].pubkey = none := by
                    simp only [seenInsert]
                    by_cases hk : rest[t'].pubkey = m.pubkey
                    · rw [hk] at hmiss
                      rw [hmiss] at hlm; cases hlm
                    · simp [hk, hseen]
                  have hrec := ih t' ht' (i + 1) (seenInsert seen m.pubkey i) hseen' hmiss
                    (fun j hj => hearlier (j + 1) (Nat.succ_lt_succ hj))
                  rw [hrec]
                  rfl

/-- C8: when some account-meta references a key `K` with no provided
account, every earlier meta referencing a provided key, `generate`
fails with `MissingAccount K`; the failure carries no file output (the
Rust code reaches `create_dir_all` and the file write only after this
loop and the serialization have succeeded). -/
theorem generate_missing_account (instruction : Instruction)
    (accounts : List (Pubkey × SolAccount)) (output_name : List Char)
    (K : Pubkey) (i : Nat) (hi : i < instruction.accounts.length)
    (hK : (instruction.accounts.get ⟨i, hi⟩).pubkey = K)
    (hmiss : lookupLast accounts K = none)
    (hearlier : ∀ j (hj : j < i),
      lookupLast accounts (instruction.accounts.get ⟨j, Nat.lt_trans hj hi⟩).pubkey ≠ none) :
    generate instruction accounts output_name = .error (.MissingAccount K) ∧
    ∀ fo, generate instruction accounts output_name ≠ .ok fo := by
  subst hK
  have h := genAccountsGo_missing accounts instruction.accounts i hi 0
    (fun _ => none) rfl hmiss hearlier
  constructor
  · simp only [generate, genAccounts, h]
    rfl
  · intro fo hfo
    simp only [generate, genAccounts, h] at hfo
    cases hfo

/-- Witness for C8: a single meta whose key has no provided account. -/
theorem generate_missing_account_witness :
    generate ⟨[7], [⟨[9], false, false⟩], [1]⟩ [] (String.toList "out") =
      .error (.MissingAccount [9]) ∧
    ∀ fo, generate ⟨[7], [⟨[9], false, false⟩], [1]⟩ [] (String.toList "out") ≠
      .ok fo :=
  generate_missing_account ⟨[7], [⟨[9], false, false⟩], [1]⟩ [] (String.toList "out")
    [9] 0 (by decide) (by decide) (by decide) (by decide)

theorem isByteList_append {l1 l2 : List Nat} :
    isByteList (l1 ++ l2) ↔ isByteList l1 ∧ isByteList l2 :=
  List.forall_mem_append

theorem u64le_bytes (x : Nat) : isByteList (u64le x) := by
  intro b hb
  simp only [u64le, List.mem_cons, List.not_mem_nil, or_false] at hb
  rcases hb with rfl | rfl | rfl | rfl | rfl | rfl | rfl | rfl <;>
    exact Nat.mod_lt _ (by norm_num)

theorem writeAccountData_bytes (buf data : List Nat)
    (hb : isByteList buf) (hd : isByteList data) :
    isByteList (writeAccountData buf data) := by
  intro x hx
  simp only [writeAccountData, List.mem_append, List.mem_replicate] at hx
  rcases hx with ((hx | hx) | hx) | hx
  · exact hb x hx
  · exact hd x hx
  · rw [hx.2]; norm_num
  · rw [hx.2]; norm_num

theorem serAccount_bytes (buf : List Nat) (sa : SerializeAccount)
    (hb : isByteList buf) (hsa : byteSerAccount sa) :
    isByteList (serAccount buf sa) := by
  cases sa with
  | Account i a =>
      rcases hsa with ⟨hk, ho, hd⟩
      simp only [serAccount]
      rw [isByteList_append]
      refine ⟨writeAccountData_bytes _ _ ?_ hd, u64le_bytes _⟩
      simp only [isByteList_append]
      refine ⟨⟨⟨⟨⟨⟨hb, ?_⟩, ?_⟩, hk⟩, ho⟩, u64le_bytes _⟩, u64le_bytes _⟩
      · cases a.is_signer <;> cases a.is_writable <;> cases a.executable <;> decide
      · decide
  | Duplicate p =>
      intro x hx
      simp only [serAccount, List.mem_append, List.mem_cons, List.not_mem_nil,
        or_false] at hx
      rcases hx with (hx | rfl) | hx
      · exact hb x hx
      · exact hsa
      · rcases hx with rfl | rfl | rfl | rfl | rfl | rfl | rfl <;> norm_num

theorem foldl_serAccount_bytes (accs : List SerializeAccount) :
    ∀ buf : List Nat, isByteList buf → (∀ sa ∈ accs, byteSerAccount sa) →
      isByteList (accs.foldl serAccount buf) := by
  induction accs with
  | nil => intro buf hb _; exact hb
  | cons sa rest ih =>
      intro buf hb hwf
      simp only [List.foldl_cons]
      exact ih (serAccount buf sa)
        (serAccount_bytes buf sa hb (hwf sa (List.mem_cons_self sa rest)))
        (fun x hx => hwf x (List.mem_cons_of_mem sa hx))

theorem serialize_parameters_bytes (accounts : List SerializeAccount)
    (instruction_data : List Nat) (program_id : Pubkey)
    (h1 : ∀ sa ∈ accounts, byteSerAccount sa)
    (h2 : isByteList instruction_data) (h3 : isByteList program_id) :
    isByteList (serialize_parameters accounts instruction_data program_id) := by
  simp only [serialize_parameters, isByteList_append]
  exact ⟨⟨⟨foldl_serAccount_bytes accounts _ (u64le_bytes _) h1, u64le_bytes _⟩,
    h2⟩, h3⟩

theorem lookupLast_mem : ∀ (l : List (Pubkey × SolAccount)) (k : Pubkey)
    (v : SolAccount), lookupLast l k = some v → ∃ k', (k', v) ∈ l := by
  intro l
  induction l with
  | nil => intro k v h; cases h
  | cons p rest ih =>
      intro k v h
      simp only [lookupLast] at h
      cases hr : lookupLast rest k with
      | some w =>
          rw [hr] at h
          cases h
          rcases ih k v hr with ⟨k', hk'⟩
          exact ⟨k', List.mem_cons_of_mem p hk'⟩
      | none =>
          rw [hr] at h
          by_cases hk : p.1 = k
          · rw [if_pos hk] at h
            cases h
            exact ⟨p.1, by simp⟩
          · rw [if_neg hk] at h
            cases h

theorem genAccountsGo_bytes (accounts : List (Pubkey × SolAccount))
    (hprov : ∀ p ∈ accounts, isByteList p.2.owner ∧ isByteList p.2.data) :
    ∀ (rest : List AccountMeta) (i : Nat) (seen : Pubkey → Option Nat)
      (out : List SerializeAccount),
      (∀ m ∈ rest, isByteList m.pubkey) →
      genAccountsGo accounts rest i seen = .ok out →
      ∀ sa ∈ out, byteSerAccount sa := by
  intro rest
  induction rest with
  | nil =>
      intro i seen out _ h sa hsa
      simp only [genAccountsGo] at h
      cases h
      cases hsa
  | cons m rest ih =>
      intro i seen out hkeys h sa hsa
      simp only [genAccountsGo] at h
      cases hseen : seen m.pubkey with
      | some j0 =>
          rw [hseen] at h
          cases hgo : genAccountsGo accounts rest (i + 1) seen with
          | error e => rw [hgo] at h; simp [Except.map] at h
          | ok out' =>
              rw [hgo] at h
              simp only [Except.map, Except.ok.injEq] at h
              subst h
              rcases List.mem_cons.mp hsa with rfl | hmem
              · exact Nat.mod_lt _ (by norm_num)
              · exact ih (i + 1) seen out'
                  (fun x hx => hkeys x (List.mem_cons_of_mem m hx)) hgo sa hmem
      | none =>
          rw [hseen] at h
          cases hlk : lookupLast accounts m.pubkey with
          | none => rw [hlk] at h; cases h
          | some provided =>
              rw [hlk] at h
              cases hgo : genAccountsGo accounts rest (i + 1)
                  (seenInsert seen m.pubkey i) with
              | error e => rw [hgo] at h; simp [Except.map] at h
              | ok out' =>
                  rw [hgo] at h
                  simp only [Except.map, Except.ok.injEq] at h
                  subst h
                  rcases List.mem_cons.mp hsa with rfl | hmem
                  · rcases lookupLast_mem accounts m.pubkey provided hlk with ⟨k', hk'⟩
                    have hp := hprov (k', provided) hk'
                    exact ⟨hkeys m (List.mem_cons_self m rest), hp.1, hp.2⟩
                  · exact ih (i + 1) (seenInsert seen m.pubkey i) out'
                      (fun x hx => hkeys x (List.mem_cons_of_mem m hx)) hgo sa hmem

theorem hexVal_hexDigit : ∀ n, n < 16 → hexVal (hexDigit n) = some n := by decide

theorem hexDigit_ne_newline : ∀ n, n < 16 → hexDigit n ≠ Char.ofNat 10 := by decide

theorem hexDecode_hexEncode (bytes : List Nat) (h : isByteList bytes) :
    hexDecode (hexEncode bytes) = some bytes := by
  induction bytes with
  | nil => rfl
  | cons b bs ih =>
      have hb : b < 256 := h b (List.mem_cons_self b bs)
      have h1 : b / 16 < 16 := by omega
      have h2 : b % 16 < 16 := Nat.mod_lt _ (by norm_num)
      have hbs : isByteList bs := fun x hx => h x (List.mem_cons_of_mem b hx)
      simp only [hexEncode, List.flatMap_cons, List.cons_append, List.nil_append]
      simp only [hexEncode] at ih
      simp only [hexDecode, hexVal_hexDigit _ h1, hexVal_hexDigit _ h2, ih hbs]
      have : b / 16 * 16 + b % 16 = b := by omega
      rw [this]

theorem hexEncode_no_newline (bytes : List Nat) (h : isByteList bytes) :
    Char.ofNat 10 ∉ hexEncode bytes := by
  intro hmem
  simp only [hexEncode, List.mem_flatMap, List.mem_cons, List.not_mem_nil,
    or_false] at hmem
  rcases hmem with ⟨b, hb, hc | hc⟩
  · exact hexDigit_ne_newline (b / 16) (by have := h b hb; omega) hc.symm
  · exact hexDigit_ne_newline (b % 16) (Nat.mod_lt _ (by norm_num)) hc.symm

/-- C9: a successful `generate` writes, under the `.dbg` directory and
with `.hex` appended to an extension-less name, the lowercase
two-digit-per-byte hex encoding of `serialize_parameters`'s output
followed by exactly one newline; decoding the digit pairs recovers the
byte vector exactly. -/
theorem generate_hex_roundtrip (instruction : Instruction)
    (accounts : List (Pubkey × SolAccount)) (output_name : List Char)
    (fo : FileOutput)
    (h : generate instruction accounts output_name = .ok fo)
    (hmetas : ∀ m ∈ instruction.accounts, isByteList m.pubkey)
    (hprov : ∀ p ∈ accounts, isByteList p.2.owner ∧ isByteList p.2.data)
    (hinstr : isByteList instruction.data)
    (hpid : isByteList instruction.program_id) :
    fo.dir = String.toList ".dbg" ∧
    fo.name = (if hasExtension output_name then output_name
               else output_name ++ String.toList ".hex") ∧
    ∃ accs, genAccounts instruction.accounts accounts = .ok accs ∧
      fo.content =
        hexEncode (serialize_parameters accs instruction.data instruction.program_id)
          ++ [Char.ofNat 10] ∧
      hexDecode (hexEncode
          (serialize_parameters accs instruction.data instruction.program_id)) =
        some (serialize_parameters accs instruction.data instruction.program_id) ∧
      Char.ofNat 10 ∉ hexEncode
        (serialize_parameters accs instruction.data instruction.program_id) := by
  simp only [generate] at h
  cases hgen : genAccounts instruction.accounts accounts with
  | error e => rw [hgen] at h; cases h
  | ok accs =>
      rw [hgen] at h
      simp only [Except.ok.injEq] at h
      subst h
      have hbytes : isByteList
          (serialize_parameters accs instruction.data instruction.program_id) :=
        serialize_parameters_bytes accs instruction.data instruction.program_id
          (genAccountsGo_bytes accounts hprov instruction.accounts 0
            (fun _ => none) accs hmetas hgen) hinstr hpid
      exact ⟨rfl, rfl, accs, rfl, rfl,
        hexDecode_hexEncode _ hbytes, hexEncode_no_newline _ hbytes⟩

/-- Witness for C9: an instruction with no accounts, one data byte. -/
theorem generate_hex_roundtrip_witness :
    (⟨String.toList ".dbg",
      (if hasExtension (String.toList "out") then String.toList "out"
       else String.toList "out" ++ String.toList ".hex"),
      hexEncode (serialize_parameters [] [171] [1]) ++ [Char.ofNat 10]⟩ :
        FileOutput).dir = String.toList ".dbg" ∧
    (⟨String.toList ".dbg",
      (if hasExtension (String.toList "out") then String.toList "out"
       else String.toList "out" ++ String.toList ".hex"),
      hexEncode (serialize_parameters [] [171] [1]) ++ [Char.ofNat 10]⟩ :
        FileOutput).name =
      (if hasExtension (String.toList "out") then String.toList "out"
       else String.toList "out" ++ String.toList ".hex") ∧
    ∃ accs, genAccounts ([] : List AccountMeta) [] = .ok accs ∧
      (⟨String.toList ".dbg",
        (if hasExtension (String.toList "out") then String.toList "out"
         else String.toList "out" ++ String.toList ".hex"),
        hexEncode (serialize_parameters [] [171] [1]) ++ [Char.ofNat 10]⟩ :
          FileOutput).content =
        hexEncode (serialize_parameters accs [171] [1]) ++ [Char.ofNat 10] ∧
      hexDecode (hexEncode (serialize_parameters accs [171] [1])) =
        some (serialize_parameters accs [171] [1]) ∧
      Char.ofNat 10 ∉ hexEncode (serialize_parameters accs [171] [1]) :=
  generate_hex_roundtrip ⟨[1], [], [171]⟩ [] (String.toList "out") _
    rfl (by decide) (by decide) (by decide) (by decide)

end Input

namespace Parser

theorem mem_lineToAddresses (rows : List Row) :
    ∀ a l : Nat,
      a ∈ (rows.foldl insertRow emptyLineMap).line_to_addresses l ↔
        ∃ r ∈ rows, r.address = a ∧ r.line = l := by
  induction rows using List.reverseRecOn with
  | nil => intro a l; simp [emptyLineMap]
  | append_singleton rows r ih =>
      intro a l
      rw [List.foldl_append]
      simp only [List.foldl_cons, List.foldl_nil, insertRow]
      by_cases hl : l = r.line
      · subst hl
        simp only [if_pos rfl, List.mem_append, List.mem_singleton, ih]
        aesop
      · rw [if_neg hl, ih]
        simp only [List.mem_append, List.mem_singleton]
        aesop

theorem addressToLine_isSome (rows : List Row) :
    ∀ a : Nat,
      ((rows.foldl insertRow emptyLineMap).address_to_line a).isSome ↔
        ∃ r ∈ rows, r.address = a := by
  induction rows using List.reverseRecOn with
  | nil => intro a; simp [emptyLineMap]
  | append_singleton rows r ih =>
      intro a
      rw [List.foldl_append]
      simp only [List.foldl_cons, List.foldl_nil, insertRow]
      by_cases ha : a = r.address
      · subst ha
        simp only [List.mem_append, List.mem_singleton, if_true,
          Option.isSome_some, true_iff]
        exact ⟨r, Or.inr rfl, rfl⟩
      · rw [if_neg ha, ih]
        simp only [List.mem_append, List.mem_singleton]
        aesop

theorem addressToLine_mem (rows : List Row) :
    ∀ a l : Nat,
      (rows.foldl insertRow emptyLineMap).address_to_line a = some l →
        ∃ r ∈ rows, r.address = a ∧ r.line = l := by
  induction rows using List.reverseRecOn with
  | nil => intro a l h; simp [emptyLineMap] at h
  | append_singleton rows r ih =>
      intro a l h
      rw [List.foldl_append] at h
      simp only [List.foldl_cons, List.foldl_nil, insertRow] at h
      by_cases ha : a = r.address
      · subst ha
        rw [if_pos rfl, Option.some.injEq] at h
        exact ⟨r, List.mem_append_right _ (List.mem_singleton_self r), rfl, h⟩
      · rw [if_neg ha] at h
        rcases ih a l h with ⟨r', hr', hra, hrl⟩
        exact ⟨r', List.mem_append_left _ hr', hra, hrl⟩

theorem getLineForPc_eq_addressToLine (rows : List Row) (pc : Nat) :
    get_line_for_pc (fromRows rows) pc =
      (rows.foldl insertRow emptyLineMap).address_to_line pc := by
  simp only [get_line_for_pc, fromRows, build_pc_mapping, get_line_for_address]
  by_cases h : ((rows.foldl insertRow emptyLineMap).address_to_line pc).isSome
  · simp [h]
  · simp [h]

theorem mem_pcsForLine (rows : List Row) (P L : Nat) :
    P ∈ get_pcs_for_line (fromRows rows) L ↔
      P ∈ (rows.foldl insertRow emptyLineMap).line_to_addresses L ∧
        ((rows.foldl insertRow emptyLineMap).address_to_line P).isSome := by
  simp only [get_pcs_for_line, get_addresses_for_line, fromRows,
    build_pc_mapping, List.mem_filterMap]
  constructor
  · rintro ⟨a, ha, hfa⟩
    by_cases hs : ((rows.foldl insertRow emptyLineMap).address_to_line a).isSome
    · rw [if_pos hs, Option.some.injEq] at hfa
      subst hfa
      exact ⟨ha, hs⟩
    · rw [if_neg hs] at hfa
      cases hfa
  · rintro ⟨hmem, hsome⟩
    exact ⟨P, hmem, by rw [if_pos hsome]⟩

/-- C6 counterexample: for the map built from `c6Rows`, PC 0 is present
in `pc→line`, lies in the PC list of line 5 yet `get_line_for_pc`
returns line 7, so the claimed equivalence fails and PC 0 appears in
the PC lists of two lines. -/
theorem linemap_iff_counterexample :
    ((fromRows c6Rows).address_to_line 0).isSome = true ∧
    get_line_for_pc (fromRows c6Rows) 0 = some 7 ∧
    0 ∈ get_pcs_for_line (fromRows c6Rows) 5 ∧
    ¬ get_line_for_pc (fromRows c6Rows) 0 = some 5 ∧
    0 ∈ get_pcs_for_line (fromRows c6Rows) 7 := by
  decide

/-- C6 amended: when no address is recorded with two different lines
(each PC appears with a single line in the DWARF rows), then for every
PC `P` present in `pc→line`, `get_line_for_pc P = some L` exactly when
`P` lies in `get_pcs_for_line L`, and `P` lies in the PC list of
exactly one line. On the unamended claim the equivalence fails once an
address is recorded with two lines (see the counterexample). -/
theorem linemap_line_pc_iff (rows : List Row)
    (hcons : ∀ r ∈ rows, ∀ r' ∈ rows, r.address = r'.address → r.line = r'.line)
    (P : Nat) (hP : ((fromRows rows).address_to_line P).isSome) (L : Nat) :
    (get_line_for_pc (fromRows rows) P = some L ↔
      P ∈ get_pcs_for_line (fromRows rows) L) ∧
    ∃! L', P ∈ get_pcs_for_line (fromRows rows) L' := by
  have hFP : ((rows.foldl insertRow emptyLineMap).address_to_line P).isSome := hP
  rcases Option.isSome_iff_exists.mp hFP with ⟨L0, hL0⟩
  have hmemL0 : P ∈ get_pcs_for_line (fromRows rows) L0 := by
    rcases addressToLine_mem rows P L0 hL0 with ⟨r, hr, hra, hrl⟩
    exact (mem_pcsForLine rows P L0).mpr
      ⟨(mem_lineToAddresses rows P L0).mpr ⟨r, hr, hra, hrl⟩, hFP⟩
  have huniq : ∀ L', P ∈ get_pcs_for_line (fromRows rows) L' → L' = L0 := by
    intro L' hmem
    rcases (mem_pcsForLine rows P L').mp hmem with ⟨hmem', _⟩
    rcases (mem_lineToAddresses rows P L').mp hmem' with ⟨r, hr, hra, hrl⟩
    rcases addressToLine_mem rows P L0 hL0 with ⟨r0, hr0, hr0a, hr0l⟩
    have := hcons r hr r0 hr0 (hra.trans hr0a.symm)
    omega
  constructor
  · constructor
    · intro h
      rw [getLineForPc_eq_addressToLine] at h
      rw [hL0, Option.some.injEq] at h
      subst h
      exact hmemL0
    · intro h
      rw [getLineForPc_eq_addressToLine, hL0, huniq L h]
  · exact ⟨L0, hmemL0, huniq⟩

/-- Witness for the amended C6 at concrete rows: two addresses on the
same line, queried at PC 0 and line 5. -/
theorem linemap_line_pc_iff_witness :
    ((get_line_for_pc (fromRows [⟨0, 5, 1, "f"⟩, ⟨8, 5, 1, "f"⟩]) 0 = some 5 ↔
      0 ∈ get_pcs_for_line (fromRows [⟨0, 5, 1, "f"⟩, ⟨8, 5, 1, "f"⟩]) 5) ∧
    ∃! L', 0 ∈ get_pcs_for_line (fromRows [⟨0, 5, 1, "f"⟩, ⟨8, 5, 1, "f"⟩]) L') :=
  linemap_line_pc_iff [⟨0, 5, 1, "f"⟩, ⟨8, 5, 1, "f"⟩] (by decide) 0 (by decide) 5

end Parser

namespace Dbg

/-- C1: from a Ready state (`at_breakpoint = false`) a Step-mode `run`
executes zero instructions when the current PC is a non-debounced
breakpoint, returning `Breakpoint(pc, line_for_pc pc)` and setting
only the two breakpoint flags; otherwise, when the interpreter step
succeeds, it executes exactly one instruction and returns
`Step(old_pc, line_for_pc old_pc)`. -/
theorem run_step_semantics (f : StepFn) (d : DState)
    (h : d.at_breakpoint = false) :
    ((d.breakpoints.contains (get_pc d)
        && !(d.last_breakpoint_pc == some (get_pc d))) = true →
      runStep f d =
        ⟨.Breakpoint (get_pc d) (get_line_for_pc d (get_pc d)),
         { d with at_breakpoint := true,
                  last_breakpoint_pc := some (get_pc d) }, 0⟩) ∧
    ((d.breakpoints.contains (get_pc d)
        && !(d.last_breakpoint_pc == some (get_pc d))) = false →
      (f d.interp).1 = true →
      runStep f d =
        ⟨.Step (get_pc d) (get_line_for_pc d (get_pc d)),
         { d with interp := consume_instruction_cost (f d.interp).2 }, 1⟩) := by
  constructor
  · intro hbp
    simp only [runStep, h, Bool.false_eq_true, if_false, hbp, eq_self_iff_true,
      if_true]
  · intro hbp hstep
    simp only [runStep, h, Bool.false_eq_true, if_false, hbp, hstep,
      eq_self_iff_true, if_true]

/-- Witness for C1 at `readyState` under the identity step. -/
theorem run_step_semantics_witness :
    ((readyState.breakpoints.contains (get_pc readyState)
        && !(readyState.last_breakpoint_pc == some (get_pc readyState))) = true →
      runStep idStep readyState =
        ⟨.Breakpoint (get_pc readyState) (get_line_for_pc readyState (get_pc readyState)),
         { readyState with at_breakpoint := true,
                           last_breakpoint_pc := some (get_pc readyState) }, 0⟩) ∧
    ((readyState.breakpoints.contains (get_pc readyState)
        && !(readyState.last_breakpoint_pc == some (get_pc readyState))) = false →
      (idStep readyState.interp).1 = true →
      runStep idStep readyState =
        ⟨.Step (get_pc readyState) (get_line_for_pc readyState (get_pc readyState)),
         { readyState with interp := consume_instruction_cost (idStep readyState.interp).2 },
         1⟩) :=
  run_step_semantics idStep readyState rfl

theorem stepAfterBreak_executed (d1 : DState) : (stepAfterBreak d1).executed = 1 := by
  unfold stepAfterBreak
  split <;> rfl

/-- In Continue mode, an accumulated count of `n` instructions never
decreases, and a state in the break condition executes its pending
instruction before any `Breakpoint` event is returned. -/
theorem runContinueAux_breakpoint_executed (f : StepFn) :
    ∀ (fuel : Nat) (d : DState) (n : Nat) (out : RunOut),
      runContinueAux f fuel d n = some out →
      ∀ q l, out.event = .Breakpoint q l →
        (if d.at_breakpoint = true then n + 1 else n) ≤ out.executed := by
  intro fuel
  induction fuel with
  | zero => intro d n out h; cases h
  | succ fuel ih =>
      intro d n out h q l hev
      simp only [runContinueAux] at h
      by_cases h1 : d.at_breakpoint = true
      · rw [if_pos h1] at h
        rw [if_pos h1]
        by_cases hs : (f d.interp).1 = true
        · rw [if_pos hs] at h
          have hrec := ih _ _ _ h q l hev
          rw [if_neg (by simp)] at hrec
          omega
        · rw [if_neg hs] at h
          cases hpr : ((f d.interp).2).programResult with
          | ok result =>
              rw [hpr] at h
              cases h
              simp at hev
          | err e =>
              rw [hpr] at h
              cases h
              simp at hev
      · rw [if_neg h1] at h
        rw [if_neg h1]
        by_cases hbp : (d.breakpoints.contains (get_pc d)
            && !(d.last_breakpoint_pc == some (get_pc d))) = true
        · rw [if_pos hbp] at h
          cases h
          exact le_refl n
        · rw [if_neg hbp] at h
          by_cases hs : (f d.interp).1 = true
          · rw [if_pos hs] at h
            have hrec := ih _ _ _ h q l hev
            by_cases h2 : d.at_breakpoint = true
            · exact absurd h2 h1
            · rw [if_neg (by simpa using h1)] at hrec
              omega
          · rw [if_neg hs] at h
            cases hpr : ((f d.interp).2).programResult with
            | ok result =>
                rw [hpr] at h
                cases h
                simp at hev
            | err e =>
                rw [hpr] at h
                cases h
                simp at hev

/-- C2: immediately after a `Breakpoint(P)` event (`at_breakpoint`
set, `last_breakpoint_pc = some P`), the next `run` — Step or
Continue mode — never returns a `Breakpoint(P, _)` event without the
interpreter first executing at least one instruction. -/
theorem run_no_breakpoint_without_step (f : StepFn) (d : DState) (P : Nat)
    (h1 : d.at_breakpoint = true) (h2 : d.last_breakpoint_pc = some P) :
    (∀ l, (runStep f d).event = .Breakpoint P l → 1 ≤ (runStep f d).executed) ∧
    (∀ fuel out l, runContinueAux f fuel d 0 = some out →
      out.event = .Breakpoint P l → 1 ≤ out.executed) := by
  constructor
  · intro l hev
    by_cases hs : (f d.interp).1 = true
    · have hr : runStep f d = stepAfterBreak
          { d with interp := consume_instruction_cost (f d.interp).2,
                   at_breakpoint := false, last_breakpoint_pc := none } := by
        simp only [runStep, h1, hs, eq_self_iff_true, if_true]
      rw [hr, stepAfterBreak_executed]
    · exfalso
      have hr : runStep f d =
          match ((f d.interp).2).programResult with
          | .ok result =>
              ⟨.Exit result, { d with interp := consume_instruction_cost (f d.interp).2 }, 0⟩
          | .err e => ⟨.Error (get_pc d) e, { d with interp := (f d.interp).2 }, 0⟩ := by
        simp only [runStep, h1, eq_self_iff_true, if_true, if_neg hs]
      rw [hr] at hev
      cases hpr : ((f d.interp).2).programResult with
      | ok result => rw [hpr] at hev; simp at hev
      | err e => rw [hpr] at hev; simp at hev
  · intro fuel out l hrun hev
    have := runContinueAux_breakpoint_executed f fuel d 0 out hrun P l hev
    rw [if_pos h1] at this
    exact this

/-- Witness for C2 at `atBreakState` under the identity step. -/
theorem run_no_breakpoint_without_step_witness :
    (∀ l, (runStep idStep atBreakState).event = .Breakpoint 0 l →
      1 ≤ (runStep idStep atBreakState).executed) ∧
    (∀ fuel out l, runContinueAux idStep fuel atBreakState 0 = some out →
      out.event = .Breakpoint 0 l → 1 ≤ out.executed) :=
  run_no_breakpoint_without_step idStep atBreakState 0 rfl rfl

theorem consume_meter_le (i : InterpState) :
    (consume_instruction_cost i).meter ≤ i.meter := by
  unfold consume_instruction_cost
  split
  · exact Nat.sub_le _ _
  · exact le_refl _

theorem consume_due_zero (i : InterpState) :
    (consume_instruction_cost i).dueInsnCount = 0 := by
  unfold consume_instruction_cost
  split
  · rfl
  · omega

theorem runStep_meter_mono (f : StepFn) (hf : ∀ i, ((f i).2).meter ≤ i.meter)
    (d : DState) :
    (runStep f d).state.interp.meter ≤ d.interp.meter ∧
    (runStep f d).state.initial_compute_budget = d.initial_compute_budget := by
  unfold runStep stepAfterBreak
  repeat' split
  all_goals exact ⟨by first
    | exact le_refl _
    | exact le_trans (consume_meter_le _) (hf _)
    | exact hf _, rfl⟩

theorem runContinueAux_meter_mono (f : StepFn)
    (hf : ∀ i, ((f i).2).meter ≤ i.meter) :
    ∀ (fuel : Nat) (d : DState) (n : Nat) (out : RunOut),
      runContinueAux f fuel d n = some out →
      out.state.interp.meter ≤ d.interp.meter ∧
      out.state.initial_compute_budget = d.initial_compute_budget := by
  intro fuel
  induction fuel with
  | zero => intro d n out h; cases h
  | succ fuel ih =>
      intro d n out h
      simp only [runContinueAux] at h
      by_cases h1 : d.at_breakpoint = true
      · rw [if_pos h1] at h
        by_cases hs : (f d.interp).1 = true
        · rw [if_pos hs] at h
          have hrec := ih _ _ _ h
          exact ⟨le_trans hrec.1 (le_trans (consume_meter_le _) (hf _)), hrec.2⟩
        · rw [if_neg hs] at h
          cases hpr : ((f d.interp).2).programResult with
          | ok result =>
              rw [hpr] at h
              cases h
              exact ⟨le_trans (consume_meter_le _) (hf _), rfl⟩
          | err e =>
              rw [hpr] at h
              cases h
              exact ⟨hf _, rfl⟩
      · rw [if_neg h1] at h
        by_cases hbp : (d.breakpoints.contains (get_pc d)
            && !(d.last_breakpoint_pc == some (get_pc d))) = true
        · rw [if_pos hbp] at h
          cases h
          exact ⟨le_refl _, rfl⟩
        · rw [if_neg hbp] at h
          by_cases hs : (f d.interp).1 = true
          · rw [if_pos hs] at h
            have hrec := ih _ _ _ h
            exact ⟨le_trans hrec.1 (le_trans (consume_meter_le _) (hf _)), hrec.2⟩
          · rw [if_neg hs] at h
            cases hpr : ((f d.interp).2).programResult with
            | ok result =>
                rw [hpr] at h
                cases h
                exact ⟨le_trans (consume_meter_le _) (hf _), rfl⟩
            | err e =>
                rw [hpr] at h
                cases h
                exact ⟨hf _, rfl⟩

/-- Deduction discipline of a Step-mode `run`: the due counter is
consumed and reset on `Step` and `Exit` events, while an `Error`
event leaves the post-step interpreter untouched. -/
theorem runStep_deduction (f : StepFn) (d : DState) :
    ((∃ pc l, (runStep f d).event = .Step pc l) →
      (runStep f d).state.interp.dueInsnCount = 0) ∧
    ((∃ c, (runStep f d).event = .Exit c) →
      (runStep f d).state.interp.dueInsnCount = 0) ∧
    ((∃ pc e, (runStep f d).event = .Error pc e) →
      (runStep f d).state.interp = (f d.interp).2) := by
  unfold runStep stepAfterBreak
  repeat' split
  all_goals refine ⟨fun hev => ?_, fun hev => ?_, fun hev => ?_⟩
  all_goals first
    | exact consume_due_zero _
    | rfl
    | exact absurd hev (by simp)

/-- Deduction discipline of a Continue-mode `run`: an `Exit` event has
the due counter consumed and reset; an `Error` event returns the
failing step's interpreter state raw, with no consume applied; a
`Breakpoint` event leaves the interpreter of its iteration untouched,
changing only the two breakpoint flags. -/
theorem runContinueAux_deduction (f : StepFn) :
    ∀ (fuel : Nat) (d : DState) (n : Nat) (out : RunOut),
      runContinueAux f fuel d n = some out →
      (∀ c, out.event = .Exit c →
        out.state.interp.dueInsnCount = 0 ∧
        ∃ i, (f i).1 = false ∧
          out.state.interp = consume_instruction_cost (f i).2) ∧
      (∀ pc e, out.event = .Error pc e →
        ∃ i, (f i).1 = false ∧ out.state.interp = (f i).2) ∧
      (∀ q l, out.event = .Breakpoint q l →
        ∃ d', d'.at_breakpoint = false ∧
          (d'.breakpoints.contains (get_pc d')
            && !(d'.last_breakpoint_pc == some (get_pc d'))) = true ∧
          out.state = { d' with at_breakpoint := true,
                                last_breakpoint_pc := some (get_pc d') }) := by
  intro fuel
  induction fuel with
  | zero => intro d n out h; cases h
  | succ fuel ih =>
      intro d n out h
      simp only [runContinueAux] at h
      by_cases h1 : d.at_breakpoint = true
      · rw [if_pos h1] at h
        by_cases hs : (f d.interp).1 = true
        · rw [if_pos hs] at h
          exact ih _ _ _ h
        · rw [if_neg hs] at h
          cases hpr : ((f d.interp).2).programResult with
          | ok result =>
              rw [hpr] at h
              cases h
              refine ⟨fun c hev => ⟨consume_due_zero _, d.interp, ?_, rfl⟩,
                fun pc e hev => ?_, fun q l hev => ?_⟩
              · simpa using hs
              · simp at hev
              · simp at hev
          | err e =>
              rw [hpr] at h
              cases h
              refine ⟨fun c hev => ?_, fun pc e' hev => ⟨d.interp, ?_, rfl⟩,
                fun q l hev => ?_⟩
              · simp at hev
              · simpa using hs
              · simp at hev
      · rw [if_neg h1] at h
        by_cases hbp : (d.breakpoints.contains (get_pc d)
            && !(d.last_breakpoint_pc == some (get_pc d))) = true
        · rw [if_pos hbp] at h
          cases h
          refine ⟨fun c hev => ?_, fun pc e hev => ?_, fun q l hev => ?_⟩
          · simp at hev
          · simp at hev
          · exact ⟨d, by simpa using h1, hbp, rfl⟩
        · rw [if_neg hbp] at h
          by_cases hs : (f d.interp).1 = true
          · rw [if_pos hs] at h
            exact ih _ _ _ h
          · rw [if_neg hs] at h
            cases hpr : ((f d.interp).2).programResult with
            | ok result =>
                rw [hpr] at h
                cases h
                refine ⟨fun c hev => ⟨consume_due_zero _, d.interp, ?_, rfl⟩,
                  fun pc e hev => ?_, fun q l hev => ?_⟩
                · simpa using hs
                · simp at hev
                · simp at hev
            | err e =>
                rw [hpr] at h
                cases h
                refine ⟨fun c hev => ?_, fun pc e' hev => ⟨d.interp, ?_, rfl⟩,
                  fun q l hev => ?_⟩
                · simp at hev
                · simpa using hs
                · simp at hev

/-- C3: under an interpreter that never refunds compute units and a
meter within the initial budget, every event returned by `run`
preserves `used + remaining = initial_compute_budget` with `used`
nondecreasing; in both modes the due count is deducted and reset
exactly on successful steps and on `Exit`, a pre-step `Breakpoint`
leaves the interpreter untouched, and an `Error` event applies no
deduction (the failing step's interpreter state is returned raw). -/
theorem run_compute_accounting (f : StepFn) (d : DState)
    (hf : ∀ i, ((f i).2).meter ≤ i.meter)
    (hinit : remaining d ≤ d.initial_compute_budget) :
    (∀ fuel out, run f fuel d = some out →
      used out.state + remaining out.state = d.initial_compute_budget ∧
      used d ≤ used out.state ∧
      out.state.initial_compute_budget = d.initial_compute_budget) ∧
    (d.at_breakpoint = false →
      (d.breakpoints.contains (get_pc d)
        && !(d.last_breakpoint_pc == some (get_pc d))) = true →
      (runStep f d).state.interp = d.interp ∧
      ∀ fuel, runContinueAux f (fuel + 1) d 0 =
        some ⟨.Breakpoint (get_pc d) (get_line_for_pc d (get_pc d)),
          { d with at_breakpoint := true,
                   last_breakpoint_pc := some (get_pc d) }, 0⟩) ∧
    (∀ pc l, (runStep f d).event = .Step pc l →
      (runStep f d).state.interp.dueInsnCount = 0) ∧
    (∀ c, (runStep f d).event = .Exit c →
      (runStep f d).state.interp.dueInsnCount = 0) ∧
    (∀ pc e, (runStep f d).event = .Error pc e →
      (runStep f d).state.interp = (f d.interp).2) ∧
    (∀ fuel out, runContinueAux f fuel d 0 = some out →
      (∀ c, out.event = .Exit c →
        out.state.interp.dueInsnCount = 0 ∧
        ∃ i, (f i).1 = false ∧
          out.state.interp = consume_instruction_cost (f i).2) ∧
      (∀ pc e, out.event = .Error pc e →
        ∃ i, (f i).1 = false ∧ out.state.interp = (f i).2) ∧
      (∀ q l, out.event = .Breakpoint q l →
        ∃ d', d'.at_breakpoint = false ∧
          (d'.breakpoints.contains (get_pc d')
            && !(d'.last_breakpoint_pc == some (get_pc d'))) = true ∧
          out.state = { d' with at_breakpoint := true,
                                last_breakpoint_pc := some (get_pc d') })) := by
  refine ⟨?_, ?_, ?_, ?_, ?_, ?_⟩
  · intro fuel out hout
    have hmono : out.state.interp.meter ≤ d.interp.meter ∧
        out.state.initial_compute_budget = d.initial_compute_budget := by
      unfold run at hout
      cases hm : d.debug_mode with
      | Step =>
          rw [hm] at hout
          simp only [Option.some.injEq] at hout
          subst hout
          exact runStep_meter_mono f hf d
      | Continue =>
          rw [hm] at hout
          exact runContinueAux_meter_mono f hf fuel d 0 out hout
    rcases hmono with ⟨hm1, hm2⟩
    unfold remaining at hinit
    unfold used remaining
    omega
  · intro hab hbp
    constructor
    · simp only [runStep, hab, Bool.false_eq_true, if_false, hbp,
        eq_self_iff_true, if_true]
    · intro fuel
      simp only [runContinueAux, hab, Bool.false_eq_true, if_false, hbp,
        eq_self_iff_true, if_true]
  · intro pc l hev
    exact (runStep_deduction f d).1 ⟨pc, l, hev⟩
  · intro c hev
    exact (runStep_deduction f d).2.1 ⟨c, hev⟩
  · intro pc e hev
    exact (runStep_deduction f d).2.2 ⟨pc, e, hev⟩
  · intro fuel out hout
    exact runContinueAux_deduction f fuel d 0 out hout

/-- Witness for C3 at `readyState` under the identity step. -/
theorem run_compute_accounting_witness :
    (∀ fuel out, run idStep fuel readyState = some out →
      used out.state + remaining out.state = readyState.initial_compute_budget ∧
      used readyState ≤ used out.state ∧
      out.state.initial_compute_budget = readyState.initial_compute_budget) ∧
    (readyState.at_breakpoint = false →
      (readyState.breakpoints.contains (get_pc readyState)
        && !(readyState.last_breakpoint_pc == some (get_pc readyState))) = true →
      (runStep idStep readyState).state.interp = readyState.interp ∧
      ∀ fuel, runContinueAux idStep (fuel + 1) readyState 0 =
        some ⟨.Breakpoint (get_pc readyState)
            (get_line_for_pc readyState (get_pc readyState)),
          { readyState with at_breakpoint := true,
                            last_breakpoint_pc := some (get_pc readyState) }, 0⟩) ∧
    (∀ pc l, (runStep idStep readyState).event = .Step pc l →
      (runStep idStep readyState).state.interp.dueInsnCount = 0) ∧
    (∀ c, (runStep idStep readyState).event = .Exit c →
      (runStep idStep readyState).state.interp.dueInsnCount = 0) ∧
    (∀ pc e, (runStep idStep readyState).event = .Error pc e →
      (runStep idStep readyState).state.interp = (idStep readyState.interp).2) ∧
    (∀ fuel out, runContinueAux idStep fuel readyState 0 = some out →
      (∀ c, out.event = .Exit c →
        out.state.interp.dueInsnCount = 0 ∧
        ∃ i, (idStep i).1 = false ∧
          out.state.interp = consume_instruction_cost (idStep i).2) ∧
      (∀ pc e, out.event = .Error pc e →
        ∃ i, (idStep i).1 = false ∧ out.state.interp = (idStep i).2) ∧
      (∀ q l, out.event = .Breakpoint q l →
        ∃ d', d'.at_breakpoint = false ∧
          (d'.breakpoints.contains (get_pc d')
            && !(d'.last_breakpoint_pc == some (get_pc d'))) = true ∧
          out.state = { d' with at_breakpoint := true,
                                last_breakpoint_pc := some (get_pc d') })) :=
  run_compute_accounting idStep readyState (fun i => le_refl _) (by decide)

/-- C10: `set_breakpoint_at_line` and `remove_breakpoint_at_line`
always return `Ok(())` — with no LineMap or no PCs for the line they
change nothing — so the adapter's `setBreakpoint` command always
answers `verified: true` inside a `success: true` envelope. -/
theorem set_breakpoint_always_ok (d : DState) (line : Nat) :
    (set_breakpoint_at_line d line).1 = .ok () ∧
    (remove_breakpoint_at_line d line).1 = .ok () ∧
    (d.dwarf_line_map = none →
      (set_breakpoint_at_line d line).2 = d ∧
      (remove_breakpoint_at_line d line).2 = d) ∧
    (∀ m, d.dwarf_line_map = some m → Parser.get_pcs_for_line m line = [] →
      (set_breakpoint_at_line d line).2 = d ∧
      (remove_breakpoint_at_line d line).2 = d) ∧
    (set_breakpoint_response d line).1.verified = true ∧
    envelope_success (set_breakpoint_response d line).1 = true := by
  have hok : (set_breakpoint_at_line d line).1 = .ok () := by
    unfold set_breakpoint_at_line
    cases d.dwarf_line_map with
    | none => rfl
    | some m => dsimp only; split <;> rfl
  have hok2 : (remove_breakpoint_at_line d line).1 = .ok () := by
    unfold remove_breakpoint_at_line
    cases d.dwarf_line_map with
    | none => rfl
    | some m => dsimp only; split <;> rfl
  refine ⟨hok, hok2, ?_, ?_, ?_, ?_⟩
  · intro hnone
    unfold set_breakpoint_at_line remove_breakpoint_at_line
    rw [hnone]
    exact ⟨rfl, rfl⟩
  · intro m hm hpcs
    unfold set_breakpoint_at_line remove_breakpoint_at_line
    rw [hm]
    dsimp only
    rw [if_neg (by simp [hpcs]), if_neg (by simp [hpcs])]
    exact ⟨rfl, rfl⟩
  · unfold set_breakpoint_response
    rcases hsp : set_breakpoint_at_line d line with ⟨r, d'⟩
    rw [hsp] at hok
    simp only at hok
    subst hok
    rfl
  · unfold set_breakpoint_response
    rcases hsp : set_breakpoint_at_line d line with ⟨r, d'⟩
    rw [hsp] at hok
    simp only at hok
    subst hok
    rfl

theorem set_breakpoint_always_ok_witness :
    (set_breakpoint_at_line readyState 7).1 = .ok () ∧
    (remove_breakpoint_at_line readyState 7).1 = .ok () ∧
    (readyState.dwarf_line_map = none →
      (set_breakpoint_at_line readyState 7).2 = readyState ∧
      (remove_breakpoint_at_line readyState 7).2 = readyState) ∧
    (∀ m, readyState.dwarf_line_map = some m →
      Parser.get_pcs_for_line m 7 = [] →
      (set_breakpoint_at_line readyState 7).2 = readyState ∧
      (remove_breakpoint_at_line readyState 7).2 = readyState) ∧
    (set_breakpoint_response readyState 7).1.verified = true ∧
    envelope_success (set_breakpoint_response readyState 7).1 = true :=
  set_breakpoint_always_ok readyState 7

end Dbg

namespace Cli

/-- C7 counterexample: the input string `"0"` — the flag's default —
produces the one-byte buffer `[0]`, not the empty buffer the claim
assigns to it. -/
theorem parse_input_zero_counterexample :
    parseInput ['0'] = some [0] ∧ some [0] ≠ (some [] : Option (List Nat)) := by
  decide

theorem parseInputParts_spec : ∀ (ps : List (List Char)) (bytes : List Nat),
    parseInputParts ps = some bytes ↔
      ((∀ p ∈ ps, trimChars p = [] ∨ (parseU8 (trimChars p)).isSome) ∧
       bytes = ps.filterMap
         (fun p => if trimChars p = [] then none else parseU8 (trimChars p))) := by
  intro ps
  induction ps with
  | nil =>
      intro bytes
      simp only [parseInputParts, Option.some.injEq, List.filterMap_nil,
        List.not_mem_nil, false_implies, implies_true, true_and]
      exact ⟨fun h => h.symm, fun h => h.symm⟩
  | cons p ps ih =>
      intro bytes
      simp only [parseInputParts, List.filterMap_cons, List.mem_cons]
      by_cases ht : trimChars p = []
      · rw [if_pos ht, if_pos ht, ih]
        constructor
        · rintro ⟨hall, hb⟩
          exact ⟨fun q hq => by
            rcases hq with rfl | hq
            · exact Or.inl ht
            · exact hall q hq, hb⟩
        · rintro ⟨hall, hb⟩
          exact ⟨fun q hq => hall q (Or.inr hq), hb⟩
      · rw [if_neg ht, if_neg ht]
        cases hp : parseU8 (trimChars p) with
        | none =>
            simp only [Option.isSome_none, Bool.false_eq_true, or_false]
            constructor
            · intro h; cases h
            · rintro ⟨hall, _⟩
              rcases hall p (Or.inl rfl) with h | h
              · exact absurd h ht
              · rw [hp] at h; cases h
        | some b =>
            simp only [Option.map_eq_some', Option.isSome_some]
            constructor
            · rintro ⟨bs, hbs, rfl⟩
              rcases (ih bs).mp hbs with ⟨hall, hb⟩
              refine ⟨fun q hq => ?_, by rw [hb]⟩
              rcases hq with rfl | hq
              · exact Or.inr (by rw [hp]; rfl)
              · exact hall q hq
            · rintro ⟨hall, hb⟩
              have hall' : ∀ q ∈ ps, trimChars q = [] ∨ (parseU8 (trimChars q)).isSome :=
                fun q hq => hall q (Or.inr hq)
              refine ⟨ps.filterMap
                  (fun q => if trimChars q = [] then none else parseU8 (trimChars q)),
                (ih _).mpr ⟨hall', rfl⟩, hb.symm⟩

/-- C7 amended: an input whose trim is empty yields the empty buffer;
otherwise the buffer is exactly the in-order list of `u8` values of
the comma-separated parts (each part trimmed, parts trimming to empty
skipped), defined whenever every non-empty part parses. In
particular the default `"0"` yields the one-byte buffer `[0]`, not
the empty buffer. -/
theorem parse_input_amended (s : List Char) (bytes : List Nat) :
    (trimChars s = [] → parseInput s = some []) ∧
    (parseInput s = some bytes ↔
      (trimChars s = [] ∧ bytes = []) ∨
      (trimChars s ≠ [] ∧
        (∀ p ∈ splitOnComma s, trimChars p = [] ∨ (parseU8 (trimChars p)).isSome) ∧
        bytes = (splitOnComma s).filterMap
          (fun p => if trimChars p = [] then none else parseU8 (trimChars p)))) := by
  constructor
  · intro ht
    unfold parseInput
    rw [if_neg (by simp [ht])]
  · unfold parseInput
    by_cases ht : trimChars s = []
    · rw [if_neg (by simp [ht])]
      simp only [ht, ne_eq, not_true_eq_false, false_and, or_false,
        Option.some.injEq, true_and]
      exact ⟨fun h => h.symm, fun h => h.symm⟩
    · rw [if_pos (by simpa using ht)]
      rw [parseInputParts_spec]
      simp only [ht, false_and, false_or, ne_eq, not_false_eq_true, true_and]

/-- Witness for the amended C7 at the concrete input `"1, 2,"`. -/
theorem parse_input_amended_witness :
    (trimChars ['1', ',', ' ', '2', ','] = [] →
      parseInput ['1', ',', ' ', '2', ','] = some []) ∧
    (parseInput ['1', ',', ' ', '2', ','] = some [1, 2] ↔
      (trimChars ['1', ',', ' ', '2', ','] = [] ∧ [1, 2] = ([] : List Nat)) ∨
      (trimChars ['1', ',', ' ', '2', ','] ≠ [] ∧
        (∀ p ∈ splitOnComma ['1', ',', ' ', '2', ','],
          trimChars p = [] ∨ (parseU8 (trimChars p)).isSome) ∧
        [1, 2] = (splitOnComma ['1', ',', ' ', '2', ',']).filterMap
          (fun p => if trimChars p = [] then none
                    else parseU8 (trimChars p)))) :=
  parse_input_amended ['1', ',', ' ', '2', ','] [1, 2]

end Cli

end SbpfDbg

